import Mathlib

/-!
Verification of the Config Patcher component of `scripts/init_project.py`
(the `update_pyproject_toml` / `get_project_name` / `slugify` methods of
`ProjectInitializer`), against its natural-language specification.

Documents are shallowly embedded as `List Char`.  Each Python `re.sub` call
is embedded as a hand-rolled matcher (one per regex, faithful to the regex's
semantics including greedy and non-greedy repetition) driven by a global,
left-to-right, non-overlapping substitution driver, exactly like `re.sub`:

  * `subAll`  embeds an un-anchored global substitution;
  * `subLine` embeds a `re.MULTILINE` substitution whose pattern starts
    with `^` (a match may only begin at the start of the string or right
    after a newline);
  * `searchLine` embeds the analogous anchored `re.search`.

Modelling notes (boundaries of the embedding):
  * `\s` is modelled as the six ASCII whitespace characters; Python also
    accepts further Unicode whitespace, which none of the documents or
    counterexamples here use.
  * `str.lower` is modelled on ASCII (`pyLower`); non-ASCII letters are
    approximated by the identity.  This is irrelevant to the claims proved
    about `slugify`, since every non-ASCII character is collapsed to a
    hyphen by the character class either way.
  * Replacement strings are spliced literally.  Python additionally applies
    template-escape processing to `\`-sequences in the replacement, so the
    theorems about value substitution carry a `no backslash` hypothesis on
    the substituted value (every call site in the script satisfies it:
    values are slugs or version strings).
  * File I/O and the `try/except` of `update_pyproject_toml` are modelled
    with `Except`/`Option` (read outcome / written content).
-/

/-- The single-quote character, written via its code point. -/
def squote : Char := Char.ofNat 39

/-- The backslash character. -/
def bslash : Char := Char.ofNat 92

/-- Python `\s` on ASCII: space, tab, newline, carriage return, vertical
tab, form feed. -/
def isPySpace (c : Char) : Bool :=
  c == ' ' || c == '\t' || c == '\n' || c == '\r' || c == '\x0b' || c == '\x0c'

/-- A character matched by the regex class `["\']`. -/
def isQuote (c : Char) : Bool :=
  c == '"' || c == squote

/-- Uppercase ASCII letter (`A`-`Z`). -/
def isUpperA (c : Char) : Bool :=
  decide (65 ≤ c.toNat) && decide (c.toNat ≤ 90)

/-- Lowercase ASCII letter (`a`-`z`). -/
def isLowerA (c : Char) : Bool :=
  decide (97 ≤ c.toNat) && decide (c.toNat ≤ 122)

/-- ASCII digit (`0`-`9`). -/
def isDigitA (c : Char) : Bool :=
  decide (48 ≤ c.toNat) && decide (c.toNat ≤ 57)

/-- The character class `[a-zA-Z0-9\-_]` of `slugify`. -/
def isSlugChar (c : Char) : Bool :=
  isLowerA c || isUpperA c || isDigitA c || c == '-' || c == '_'

/-- The character class `[a-zA-Z_]` used by `slugify` for the leading
character. -/
def isAlphaUnd (c : Char) : Bool :=
  isLowerA c || isUpperA c || c == '_'

/-- Characters allowed in a finished slug: lowercase letters, digits,
hyphen, underscore. -/
def isOutChar (c : Char) : Bool :=
  isLowerA c || isDigitA c || c == '-' || c == '_'

/-- Abbreviation turning a string literal into the `List Char` the model
works on. -/
def strL (s : String) : List Char := s.toList

/-- Consume an exact literal prefix, returning the remainder
(`None` if the input does not start with the literal). -/
def dropLit : List Char → List Char → Option (List Char)
  | [], s => some s
  | _ :: _, [] => none
  | l :: ls, c :: cs => if c = l then dropLit ls cs else none

/-- Greedy `\s*`: split off the maximal whitespace prefix. -/
def takeSpaces : List Char → List Char × List Char
  | [] => ([], [])
  | c :: r =>
    if isPySpace c then
      let p := takeSpaces r
      (c :: p.1, p.2)
    else ([], c :: r)

/-- Greedy `[^"\']*`: split off the maximal prefix free of quote
characters. -/
def takeValue : List Char → List Char × List Char
  | [] => ([], [])
  | c :: r =>
    if isQuote c then ([], c :: r)
    else
      let p := takeValue r
      (c :: p.1, p.2)

/-- Non-greedy `.*?\]` under `re.DOTALL`: consume up to and including the
first `]`, returning the consumed length and the remainder; `none` if no
`]` occurs. -/
def takeToRB : List Char → Option (Nat × List Char)
  | [] => none
  | c :: r =>
    if c = ']' then some (1, r)
    else (takeToRB r).map (fun p => (p.1 + 1, p.2))

/-- Python's substring test (`pat in s`). -/
def hasSub (pat : List Char) : List Char → Bool
  | [] => (dropLit pat []).isSome
  | c :: r => (dropLit pat (c :: r)).isSome || hasSub pat r

/-- Core of the regex `key\s*=\s*["\'][^"\']*["\']` at the head of the
input: on success returns the total matched length together with the
value characters captured between the quotes (possibly empty). -/
def scanKeyVal (key : List Char) (s : List Char) : Option (Nat × List Char) :=
  match dropLit key s with
  | none => none
  | some s1 =>
    let p1 := takeSpaces s1
    match p1.2 with
    | [] => none
    | c :: s2 =>
      if c = '=' then
        let p2 := takeSpaces s2
        match p2.2 with
        | [] => none
        | q :: s3 =>
          if isQuote q then
            let pv := takeValue s3
            match pv.2 with
            | [] => none
            | q2 :: _ =>
              if isQuote q2 then
                some (key.length + p1.1.length + 1 + p2.1.length + 1 + pv.1.length + 1, pv.1)
              else none
          else none
      else none

/-- Matched length of `key\s*=\s*["\'][^"\']+["\']` (or with `*` instead
of `+` when `allowEmpty` is set, as in the `description` substitution) at
the head of the input. -/
def matchKeyVal (key : List Char) (allowEmpty : Bool) (s : List Char) : Option Nat :=
  match scanKeyVal key s with
  | none => none
  | some (n, v) => if v.length = 0 ∧ allowEmpty = false then none else some n

/-- Matched length of `key\s*=\s*\[.*?\]` (DOTALL, non-greedy) at the head
of the input. -/
def matchBracketBlock (key : List Char) (s : List Char) : Option Nat :=
  match dropLit key s with
  | none => none
  | some s1 =>
    let p1 := takeSpaces s1
    match p1.2 with
    | [] => none
    | c :: s2 =>
      if c = '=' then
        let p2 := takeSpaces s2
        match p2.2 with
        | [] => none
        | q :: s3 =>
          if q = '[' then
            (takeToRB s3).map (fun p => key.length + p1.1.length + 1 + p2.1.length + 1 + p.1)
          else none
      else none

/-- Group 1 of `key\s*=\s*["\']([^"\']+)["\']` at the head of the input,
as used by `get_project_name`. -/
def extractKeyVal (key : List Char) (s : List Char) : Option (List Char) :=
  match scanKeyVal key s with
  | none => none
  | some (_, v) => if v.length = 0 then none else some v

/-- Non-greedy scan of `[^\[]*?` followed by `\n\[` or end of input (the
group-2 alternative `(\n\[|\Z)` of the packages-insertion regex).  Returns
the consumed body together with `true` when the stop was at `\n[` (whose
two characters are then part of the overall match) and `false` when the
stop was at the end of the input; `none` when a `[` is reached without a
directly preceding newline. -/
def scanProj : List Char → Option (List Char × Bool)
  | [] => some ([], false)
  | c :: r =>
    if c = '\n' ∧ r.head? = some '[' then some ([], true)
    else if c = '[' then none
    else (scanProj r).map (fun p => (c :: p.1, p.2))

/-- Literal text `[project]`. -/
def projHdr : List Char := strL "[project]"

/-- The full packages-insertion match
`(\[project\][^\[]*?)(\n\[|\Z)` with replacement
`\1<ins>\2`: returns matched length and replacement text. -/
def mProjIns (ins : List Char) (s : List Char) : Option (Nat × List Char) :=
  match dropLit projHdr s with
  | none => none
  | some s1 =>
    match scanProj s1 with
    | none => none
    | some (body, true) =>
      some (projHdr.length + body.length + 2, projHdr ++ body ++ ins ++ strL "\n[")
    | some (body, false) =>
      some (projHdr.length + body.length, projHdr ++ body ++ ins)

/-- Replacement text `key = "<v>"` used by the scalar substitutions. -/
def scalarRepl (key : List Char) (v : List Char) : List Char :=
  key ++ (' ' :: '=' :: ' ' :: '"' :: (v ++ ['"']))

/-- Scalar-field matcher paired with its fixed replacement text. -/
def mScalar (key : List Char) (allowEmpty : Bool) (v : List Char)
    (s : List Char) : Option (Nat × List Char) :=
  (matchKeyVal key allowEmpty s).map (fun n => (n, scalarRepl key v))

/-- Bracket-block matcher paired with a fixed replacement text. -/
def mBracket (key : List Char) (repl : List Char) (s : List Char) :
    Option (Nat × List Char) :=
  (matchBracketBlock key s).map (fun n => (n, repl))

/-- Global un-anchored substitution driver with explicit fuel (one unit of
fuel per scan position; the fuel is set to the input length by `subAll`,
which always suffices because a match consumes at least one character). -/
def subAllF (m : List Char → Option (Nat × List Char)) : Nat → List Char → List Char
  | 0, s => s
  | _ + 1, [] => []
  | fuel + 1, c :: rest =>
    match m (c :: rest) with
    | some (Nat.succ k, r) => r ++ subAllF m fuel (rest.drop k)
    | some (0, _) => c :: subAllF m fuel rest
    | none => c :: subAllF m fuel rest

/-- `re.sub` with an un-anchored pattern: replace every non-overlapping
match, scanning left to right. -/
def subAll (m : List Char → Option (Nat × List Char)) (s : List Char) : List Char :=
  subAllF m s.length s

/-- Global `^`-anchored (`re.MULTILINE`) substitution driver; the Boolean
tracks whether the current position is at the start of a line. -/
def subLineF (m : List Char → Option (Nat × List Char)) : Nat → Bool → List Char → List Char
  | 0, _, s => s
  | _ + 1, _, [] => []
  | fuel + 1, b, c :: rest =>
    match (if b then m (c :: rest) else none) with
    | some (Nat.succ k, r) => r ++ subLineF m fuel false (rest.drop k)
    | some (0, _) => c :: subLineF m fuel (c == '\n') rest
    | none => c :: subLineF m fuel (c == '\n') rest

/-- `re.sub` with a `^`-anchored `re.MULTILINE` pattern. -/
def subLine (m : List Char → Option (Nat × List Char)) (s : List Char) : List Char :=
  subLineF m s.length true s

/-- `re.search` with a `^`-anchored `re.MULTILINE` pattern, returning the
extraction of the first (leftmost) match. -/
def searchLineF (e : List Char → Option (List Char)) :
    Nat → Bool → List Char → Option (List Char)
  | 0, _, _ => none
  | _ + 1, _, [] => none
  | fuel + 1, b, c :: rest =>
    match (if b then e (c :: rest) else none) with
    | some v => some v
    | none => searchLineF e fuel (c == '\n') rest

/-- Top-level anchored search. -/
def searchLine (e : List Char → Option (List Char)) (s : List Char) :
    Option (List Char) :=
  searchLineF e s.length true s

/-- Key of the `name` field. -/
def nameKey : List Char := strL "name"

/-- Key of the `description` field. -/
def descKey : List Char := strL "description"

/-- Key of the `requires-python` field. -/
def reqKey : List Char := strL "requires-python"

/-- Key rewritten for the changelog tool (`package`). -/
def toolKey : List Char := strL "package"

/-- Key of the `authors` list. -/
def authorsKey : List Char := strL "authors"

/-- Key of the `packages` list. -/
def packagesKey : List Char := strL "packages"

/-- Literal `packages = [` tested by the structure-dependent branch. -/
def pkgLit : List Char := strL "packages = ["

/-- `setScalarField`: the scalar-field substitution of
`update_pyproject_toml` (source lines 245-250 for `name`,
268-273 for `requires-python`): global MULTILINE substitution of
`^key\s*=\s*["\'][^"\']+["\']` by `key = "<v>"`. -/
def setScalarField (key : List Char) (v : List Char) (doc : List Char) : List Char :=
  subLine (mScalar key false v) doc

/-- The `description` substitution (source lines 261-266); identical to
`setScalarField` except that the value class is `[^"\']*`. -/
def setDescriptionField (v : List Char) (doc : List Char) : List Char :=
  subLine (mScalar descKey true v) doc

/-- `setRequiresVersion` (source lines 268-273): scalar replace of
`requires-python` with the synthesized value `">=<minVersion>"`. -/
def setRequiresVersion (ver : List Char) (doc : List Char) : List Char :=
  subLine (mScalar reqKey false (strL ">=" ++ ver)) doc

/-- Replacement text of the authors substitution:
`authors = [ { name = "<n>", email = "<e>" } ]`. -/
def authorsRepl (n e : List Char) : List Char :=
  strL "authors = [ \x7b name = \"" ++ n ++ strL "\", email = \"" ++ e ++ strL "\" \x7d ]"

/-- `setAuthors` (source lines 283-288): un-anchored DOTALL substitution of
`authors\s*=\s*\[.*?\]` by a single-entry list. -/
def setAuthors (n e : List Char) (doc : List Char) : List Char :=
  subAll (mBracket authorsKey (authorsRepl n e)) doc

/-- `setToolPackageKey` (source lines 300-305): substitution of
`package\s*=\s*["\'][^"\']+["\']` by `package = "<pkg>"`.  The source
passes `re.MULTILINE` but the pattern has no `^`, so the substitution is
un-anchored and global. -/
def setToolPackageKey (key : List Char) (pkg : List Char) (doc : List Char) : List Char :=
  subAll (mScalar key false pkg) doc

/-- Inserted/replacement text `packages = [{include = "<p>"}]`. -/
def pkgInclude (p : List Char) : List Char :=
  strL "packages = [\x7binclude = \"" ++ p ++ strL "\"\x7d]"

/-- `setPackagesInclude` (source lines 317-333): if the literal
`packages = [` occurs nowhere in the document, substitute
`(\[project\][^\[]*?)(\n\[|\Z)` by `\1packages = [{include = "<p>"}]\2`
(DOTALL); otherwise substitute `packages\s*=\s*\[.*?\]` wholesale. -/
def setPackagesInclude (p : List Char) (doc : List Char) : List Char :=
  if hasSub pkgLit doc then subAll (mBracket packagesKey (pkgInclude p)) doc
  else subAll (mProjIns (pkgInclude p)) doc

/-- `get_project_name` (source lines 56-73), restricted to its pure part:
first match of `^name\s*=\s*["\']([^"\']+)["\']` (MULTILINE), group 1. -/
def getProjectName (doc : List Char) : Option (List Char) :=
  searchLine (extractKeyVal nameKey) doc

/-- ASCII model of `str.lower` for a single character. -/
def pyLower (c : Char) : Char :=
  if 65 ≤ c.toNat ∧ c.toNat ≤ 90 then Char.ofNat (c.toNat + 32) else c

mutual

/-- `re.sub(r"[^a-zA-Z0-9\-_]+", "-", ·)`: characters of the class are
kept, a maximal run outside the class is collapsed to one hyphen. -/
def slugSub : List Char → List Char
  | [] => []
  | c :: r => if isSlugChar c then c :: slugSub r else '-' :: slugSkip r

/-- State of `slugSub` inside a run of characters outside the class (the
hyphen for the run has already been emitted). -/
def slugSkip : List Char → List Char
  | [] => []
  | c :: r => if isSlugChar c then c :: slugSub r else slugSkip r

end

/-- Python `str.strip("-")`: drop hyphens from both ends. -/
def stripDash (l : List Char) : List Char :=
  ((l.dropWhile (fun c => c == '-')).reverse.dropWhile (fun c => c == '-')).reverse

/-- The final step of `slugify`: if the slug is non-empty and does not
start with `[a-zA-Z_]`, remove the leading run `^[^a-zA-Z_]+`. -/
def fixLead : List Char → List Char
  | [] => []
  | c :: r =>
    if isAlphaUnd c then c :: r
    else (c :: r).dropWhile (fun x => !isAlphaUnd x)

/-- `ProjectInitializer.slugify` (source lines 165-175). -/
def slugify (s : List Char) : List Char :=
  fixLead (stripDash (slugSub (s.map pyLower)))

/-- Structure choice of the configuration (spec section 3). -/
inductive PStructure
  | default
  | package
  | library
deriving DecidableEq

/-- `ProjectConfig` (spec section 3 / the `config` dict of the source). -/
structure ProjectConfig where
  name : List Char
  packageName : List Char
  pstructure : PStructure
  pythonVersion : List Char
  author : List Char
  email : List Char
  description : List Char

/-- The pure document transformation performed inside the `try` block of
`update_pyproject_toml` (source lines 244-333), in source order: name
(with the slugified project name), description, requires-python, authors
(only when the author is non-empty), towncrier package key, and the
structure-dependent packages configuration. -/
def updateContent (c : ProjectConfig) (doc : List Char) : List Char :=
  let d1 := setScalarField nameKey (slugify c.name) doc
  let d2 := setDescriptionField c.description d1
  let d3 := setRequiresVersion c.pythonVersion d2
  let d4 := if c.author = [] then d3 else setAuthors c.author c.email d3
  let d5 := setToolPackageKey toolKey c.packageName d4
  match c.pstructure with
  | PStructure.package => setPackagesInclude c.packageName d5
  | _ => d5

/-- `update_pyproject_toml` (source lines 230-341) with its I/O modelled:
the read outcome is an `Except`; on a read failure the exception is caught
and nothing is written (`none`); on success the whole transformed document
is written in one piece (`some`). -/
def updatePyprojectToml (c : ProjectConfig)
    (readDoc : Except (List Char) (List Char)) : Option (List Char) :=
  match readDoc with
  | Except.error _ => none
  | Except.ok d => some (updateContent c d)

/-- The independent setup steps of `initialize_project`
(source lines 202-228). -/
inductive InitStep
  | updateToml
  | createStructure
  | setupTowncrier
  | createEnvrc
  | touchSentinel
deriving DecidableEq

/-- The step sequence of `initialize_project` once a pyproject file
exists: each step runs unconditionally after the previous one. -/
def initSteps : List InitStep :=
  [InitStep.updateToml, InitStep.createStructure, InitStep.setupTowncrier,
   InitStep.createEnvrc, InitStep.touchSentinel]

/-- `initialize_project` (source lines 202-228), modelled as the list of
executed steps together with the content written to the configuration
document (if any): `update_pyproject_toml` catches its own exceptions, so
the remaining steps always execute. -/
def initializeProject (c : ProjectConfig)
    (readDoc : Except (List Char) (List Char)) : List InitStep × Option (List Char) :=
  (initSteps, updatePyprojectToml c readDoc)

/-- No match of `f` can start strictly inside `u` when the text continues
with `v` (every position of `u`, looking at the rest of `u ++ v`, fails to
match). -/
def noCrossAll {α : Type} (f : List Char → Option α) : List Char → List Char → Bool
  | [], _ => true
  | c :: r, v => (f (c :: (r ++ v))).isNone && noCrossAll f r v

/-- Line-start flag after consuming a list, starting from flag `b`. -/
def lineFlag (b : Bool) : List Char → Bool
  | [] => b
  | c :: r => lineFlag (c == '\n') r

/-- Anchored variant of `noCrossAll`: no match of `f` can start at a
line-start position inside `u` (with initial line-start flag `b`) when the
text continues with `v`. -/
def noCrossLine {α : Type} (f : List Char → Option α) :
    Bool → List Char → List Char → Bool
  | _, [], _ => true
  | b, c :: r, v =>
    (if b then (f (c :: (r ++ v))).isNone else true) && noCrossLine f (c == '\n') r v

/-- The text `key = [<inner>]` matched by the bracket-block pattern. -/
def bracketOcc (key inner : List Char) : List Char :=
  key ++ (' ' :: '=' :: ' ' :: '[' :: (inner ++ [']']))

/-- First-character test of a finished slug: empty, or a lowercase letter
or underscore (in particular not a hyphen and not a digit). -/
def headOkB (l : List Char) : Bool :=
  match l.head? with
  | none => true
  | some c => isLowerA c || c == '_'

/-- Last-character test of a finished slug: empty or not a hyphen. -/
def lastNotDashB (l : List Char) : Bool :=
  match l.getLast? with
  | none => true
  | some c => !(c == '-')

/-! ### Basic lemmas about the drivers -/

theorem subAllF_nil (m : List Char → Option (Nat × List Char)) (fuel : Nat) :
    subAllF m fuel [] = [] := by
  cases fuel <;> simp [subAllF]

theorem subLineF_nil (m : List Char → Option (Nat × List Char)) (fuel : Nat) (b : Bool) :
    subLineF m fuel b [] = [] := by
  cases fuel <;> simp [subLineF]

theorem searchLineF_nil (e : List Char → Option (List Char)) (fuel : Nat) (b : Bool) :
    searchLineF e fuel b [] = none := by
  cases fuel <;> simp [searchLineF]

theorem subAllF_matchStep (m : List Char → Option (Nat × List Char))
    (c : Char) (rest r : List Char) (k fuel : Nat)
    (h : m (c :: rest) = some (k + 1, r)) :
    subAllF m (fuel + 1) (c :: rest) = r ++ subAllF m fuel (rest.drop k) := by
  simp [subAllF, h]

theorem subLineF_matchStep (m : List Char → Option (Nat × List Char))
    (c : Char) (rest r : List Char) (k fuel : Nat)
    (h : m (c :: rest) = some (k + 1, r)) :
    subLineF m (fuel + 1) true (c :: rest) = r ++ subLineF m fuel false (rest.drop k) := by
  simp [subLineF, h]

theorem searchLineF_hit (e : List Char → Option (List Char))
    (c : Char) (rest v : List Char) (fuel : Nat)
    (h : e (c :: rest) = some v) :
    searchLineF e (fuel + 1) true (c :: rest) = some v := by
  simp [searchLineF, h]

theorem subAllF_fuelEq (m : List Char → Option (Nat × List Char)) :
    ∀ (f1 : Nat) (s : List Char) (f2 : Nat), s.length ≤ f1 → s.length ≤ f2 →
      subAllF m f1 s = subAllF m f2 s := by
  intro f1
  induction f1 with
  | zero =>
    intro s f2 h1 _
    have : s = [] := List.eq_nil_of_length_eq_zero (Nat.le_zero.mp h1)
    subst this
    simp [subAllF_nil]
  | succ f ih =>
    intro s f2 h1 h2
    cases s with
    | nil => simp [subAllF_nil]
    | cons c rest =>
      obtain ⟨g, rfl⟩ : ∃ g, f2 = g + 1 := by
        cases f2 with
        | zero => simp at h2
        | succ g => exact ⟨g, rfl⟩
      rcases hm : m (c :: rest) with _ | ⟨k, r⟩
      · simp only [subAllF, hm]
        exact congrArg (c :: ·) (ih rest g (by simpa using h1) (by simpa using h2))
      · cases k with
        | zero =>
          simp only [subAllF, hm]
          exact congrArg (c :: ·) (ih rest g (by simpa using h1) (by simpa using h2))
        | succ k =>
          simp only [subAllF, hm]
          refine congrArg (r ++ ·) (ih (rest.drop k) g ?_ ?_)
          · simp only [List.length_drop]
            simp at h1
            omega
          · simp only [List.length_drop]
            simp at h2
            omega

theorem subLineF_fuelEq (m : List Char → Option (Nat × List Char)) :
    ∀ (f1 : Nat) (b : Bool) (s : List Char) (f2 : Nat), s.length ≤ f1 → s.length ≤ f2 →
      subLineF m f1 b s = subLineF m f2 b s := by
  intro f1
  induction f1 with
  | zero =>
    intro b s f2 h1 _
    have : s = [] := List.eq_nil_of_length_eq_zero (Nat.le_zero.mp h1)
    subst this
    simp [subLineF_nil]
  | succ f ih =>
    intro b s f2 h1 h2
    cases s with
    | nil => simp [subLineF_nil]
    | cons c rest =>
      obtain ⟨g, rfl⟩ : ∃ g, f2 = g + 1 := by
        cases f2 with
        | zero => simp at h2
        | succ g => exact ⟨g, rfl⟩
      rcases hm : (if b then m (c :: rest) else none) with _ | ⟨k, r⟩
      · simp only [subLineF, hm]
        exact congrArg (c :: ·) (ih _ rest g (by simpa using h1) (by simpa using h2))
      · cases k with
        | zero =>
          simp only [subLineF, hm]
          exact congrArg (c :: ·) (ih _ rest g (by simpa using h1) (by simpa using h2))
        | succ k =>
          simp only [subLineF, hm]
          refine congrArg (r ++ ·) (ih _ (rest.drop k) g ?_ ?_)
          · simp only [List.length_drop]
            simp at h1
            omega
          · simp only [List.length_drop]
            simp at h2
            omega

theorem subAllF_append (m : List Char → Option (Nat × List Char)) :
    ∀ (u v : List Char) (fuel : Nat), (u ++ v).length ≤ fuel →
      noCrossAll m u v = true →
      subAllF m fuel (u ++ v) = u ++ subAllF m (fuel - u.length) v := by
  intro u
  induction u with
  | nil => intro v fuel _ _; simp
  | cons c u' ih =>
    intro v fuel hf hnc
    obtain ⟨f, rfl⟩ : ∃ f, fuel = f + 1 := by
      cases fuel with
      | zero => simp at hf
      | succ f => exact ⟨f, rfl⟩
    simp only [noCrossAll, Bool.and_eq_true, Option.isNone_iff_eq_none] at hnc
    obtain ⟨hnone, hrest⟩ := hnc
    have : ((c :: u') ++ v) = c :: (u' ++ v) := rfl
    rw [this]
    simp only [subAllF, hnone]
    rw [ih v f (by simpa using hf) hrest]
    simp [Nat.succ_sub_succ]

theorem subLineF_append (m : List Char → Option (Nat × List Char)) :
    ∀ (u v : List Char) (b : Bool) (fuel : Nat), (u ++ v).length ≤ fuel →
      noCrossLine m b u v = true →
      subLineF m fuel b (u ++ v) = u ++ subLineF m (fuel - u.length) (lineFlag b u) v := by
  intro u
  induction u with
  | nil => intro v b fuel _ _; simp [lineFlag]
  | cons c u' ih =>
    intro v b fuel hf hnc
    obtain ⟨f, rfl⟩ : ∃ f, fuel = f + 1 := by
      cases fuel with
      | zero => simp at hf
      | succ f => exact ⟨f, rfl⟩
    simp only [noCrossLine, Bool.and_eq_true] at hnc
    obtain ⟨hnone, hrest⟩ := hnc
    have hsel : (if b then m (c :: (u' ++ v)) else none) = none := by
      cases b with
      | false => simp
      | true =>
        simp only [if_true]
        simpa [Option.isNone_iff_eq_none] using hnone
    have : ((c :: u') ++ v) = c :: (u' ++ v) := rfl
    rw [this]
    simp only [subLineF, hsel]
    rw [ih v (c == '\n') f (by simpa using hf) hrest]
    simp [Nat.succ_sub_succ, lineFlag]

theorem searchLineF_append (e : List Char → Option (List Char)) :
    ∀ (u v : List Char) (b : Bool) (fuel : Nat), (u ++ v).length ≤ fuel →
      noCrossLine e b u v = true →
      searchLineF e fuel b (u ++ v) = searchLineF e (fuel - u.length) (lineFlag b u) v := by
  intro u
  induction u with
  | nil => intro v b fuel _ _; simp [lineFlag]
  | cons c u' ih =>
    intro v b fuel hf hnc
    obtain ⟨f, rfl⟩ : ∃ f, fuel = f + 1 := by
      cases fuel with
      | zero => simp at hf
      | succ f => exact ⟨f, rfl⟩
    simp only [noCrossLine, Bool.and_eq_true] at hnc
    obtain ⟨hnone, hrest⟩ := hnc
    have hsel : (if b then e (c :: (u' ++ v)) else none) = none := by
      cases b with
      | false => simp
      | true =>
        simp only [if_true]
        simpa [Option.isNone_iff_eq_none] using hnone
    have : ((c :: u') ++ v) = c :: (u' ++ v) := rfl
    rw [this]
    simp only [searchLineF, hsel]
    rw [ih v (c == '\n') f (by simpa using hf) hrest]
    simp [Nat.succ_sub_succ, lineFlag]

theorem subAllF_id (m : List Char → Option (Nat × List Char))
    (s : List Char) (fuel : Nat) (hf : s.length ≤ fuel)
    (h : noCrossAll m s [] = true) :
    subAllF m fuel s = s := by
  have := subAllF_append m s [] fuel (by simpa using hf) h
  simpa [subAllF_nil] using this

theorem subLineF_id (m : List Char → Option (Nat × List Char))
    (s : List Char) (b : Bool) (fuel : Nat) (hf : s.length ≤ fuel)
    (h : noCrossLine m b s [] = true) :
    subLineF m fuel b s = s := by
  have := subLineF_append m s [] b fuel (by simpa using hf) h
  simpa [subLineF_nil] using this

/-! ### Matcher computation lemmas and substitution lemmas -/

theorem dropLit_self : ∀ (L t : List Char), dropLit L (L ++ t) = some t := by
  intro L
  induction L with
  | nil => intro t; rfl
  | cons l ls ih => intro t; simp [dropLit, ih]

theorem takeValue_build (w : List Char) (q : Char) (t : List Char)
    (hw : w.all (fun c => !isQuote c) = true) (hq : isQuote q = true) :
    takeValue (w ++ q :: t) = (w, q :: t) := by
  induction w with
  | nil => simp [takeValue, hq]
  | cons c w' ih =>
    simp only [List.all_cons, Bool.and_eq_true, Bool.not_eq_true'] at hw
    simp [takeValue, hw.1, ih hw.2]

theorem takeSpaces_space (c : Char) (l : List Char) (h : isPySpace c = true) :
    takeSpaces (c :: l) = (c :: (takeSpaces l).1, (takeSpaces l).2) := by
  simp [takeSpaces, h]

theorem takeSpaces_nospace (c : Char) (l : List Char) (h : isPySpace c = false) :
    takeSpaces (c :: l) = ([], c :: l) := by
  simp [takeSpaces, h]

theorem scanKeyVal_std (key w t : List Char) (hw : w.all (fun c => !isQuote c) = true) :
    scanKeyVal key (key ++ (' ' :: '=' :: ' ' :: '"' :: (w ++ '"' :: t)))
      = some (key.length + 5 + w.length, w) := by
  simp only [scanKeyVal, dropLit_self]
  rw [takeSpaces_space ' ' _ (by decide), takeSpaces_nospace '=' _ (by decide)]
  simp only [if_pos rfl]
  rw [takeSpaces_space ' ' _ (by decide), takeSpaces_nospace '"' _ (by decide)]
  simp only []
  rw [takeValue_build w '"' t hw (by decide)]
  simp only [(by decide : isQuote '"' = true), if_true]
  simp
  omega

theorem isNoneMap {α β : Type} (o : Option α) (f : α → β) :
    (o.map f).isNone = o.isNone := by
  cases o <;> rfl

theorem scalarRepl_append (key v B : List Char) :
    scalarRepl key v ++ B = key ++ (' ' :: '=' :: ' ' :: '"' :: (v ++ '"' :: B)) := by
  simp [scalarRepl]

theorem scalarRepl_length (key v : List Char) :
    (scalarRepl key v).length = key.length + 5 + v.length := by
  simp [scalarRepl]
  omega

theorem matchKeyVal_std (key w t : List Char)
    (hw : w.all (fun c => !isQuote c) = true) (hne : w ≠ []) :
    matchKeyVal key false (key ++ (' ' :: '=' :: ' ' :: '"' :: (w ++ '"' :: t)))
      = some (key.length + 5 + w.length) := by
  simp only [matchKeyVal, scanKeyVal_std key w t hw]
  simp [List.length_eq_zero, hne]

theorem extractKeyVal_std (key w t : List Char)
    (hw : w.all (fun c => !isQuote c) = true) (hne : w ≠ []) :
    extractKeyVal key (key ++ (' ' :: '=' :: ' ' :: '"' :: (w ++ '"' :: t))) = some w := by
  simp only [extractKeyVal, scanKeyVal_std key w t hw]
  simp [List.length_eq_zero, hne]

theorem mScalar_std (key w t v : List Char)
    (hw : w.all (fun c => !isQuote c) = true) (hne : w ≠ []) :
    mScalar key false v (key ++ (' ' :: '=' :: ' ' :: '"' :: (w ++ '"' :: t)))
      = some (key.length + 5 + w.length, scalarRepl key v) := by
  simp [mScalar, matchKeyVal_std key w t hw hne]

theorem takeToRB_build (x t : List Char) (hx : x.all (fun c => !(c == ']')) = true) :
    takeToRB (x ++ ']' :: t) = some (x.length + 1, t) := by
  induction x with
  | nil => simp [takeToRB]
  | cons c x' ih =>
    simp only [List.all_cons, Bool.and_eq_true, Bool.not_eq_true'] at hx
    have hc : ¬ (c = ']') := by
      intro h
      subst h
      simp at hx
    simp [takeToRB, hc, ih hx.2]

theorem matchBracketBlock_std (key inner t : List Char)
    (hin : inner.all (fun c => !(c == ']')) = true) :
    matchBracketBlock key (key ++ (' ' :: '=' :: ' ' :: '[' :: (inner ++ ']' :: t)))
      = some (key.length + 5 + inner.length) := by
  simp only [matchBracketBlock, dropLit_self]
  rw [takeSpaces_space ' ' _ (by decide), takeSpaces_nospace '=' _ (by decide)]
  simp only [if_pos rfl]
  rw [takeSpaces_space ' ' _ (by decide), takeSpaces_nospace '[' _ (by decide)]
  simp only [if_pos rfl]
  rw [takeToRB_build inner t hin]
  simp
  omega

theorem mBracket_std (key inner t repl : List Char)
    (hin : inner.all (fun c => !(c == ']')) = true) :
    mBracket key repl (key ++ (' ' :: '=' :: ' ' :: '[' :: (inner ++ ']' :: t)))
      = some (key.length + 5 + inner.length, repl) := by
  simp [mBracket, matchBracketBlock_std key inner t hin]

theorem scanProj_build (B C : List Char) (hB : B.all (fun c => !(c == '[')) = true) :
    scanProj (B ++ '\n' :: '[' :: C) = some (B, true) := by
  induction B with
  | nil => simp [scanProj]
  | cons c B' ih =>
    simp only [List.all_cons, Bool.and_eq_true, Bool.not_eq_true'] at hB
    have hc : ¬ (c = '[') := by
      intro h
      subst h
      simp at hB
    have hcond : ¬ (c = '\n' ∧ (B' ++ '\n' :: '[' :: C).head? = some '[') := by
      rintro ⟨-, hh⟩
      cases B' with
      | nil => simp at hh
      | cons y B'' =>
        simp at hh
        subst hh
        simp at hB
    simp only [scanProj, List.append_eq]
    rw [if_neg hcond, if_neg hc, ih hB.2]
    rfl

theorem mProjIns_std (B C ins : List Char) (hB : B.all (fun c => !(c == '[')) = true) :
    mProjIns ins (projHdr ++ (B ++ '\n' :: '[' :: C))
      = some (projHdr.length + B.length + 2, projHdr ++ B ++ ins ++ strL "\n[") := by
  simp only [mProjIns, dropLit_self, scanProj_build B C hB]

theorem hasSub_append_right (pat u w : List Char) (h : (dropLit pat w).isSome = true) :
    hasSub pat (u ++ w) = true := by
  induction u with
  | nil =>
    cases w with
    | nil => simpa [hasSub] using h
    | cons c r => simp [hasSub, h]
  | cons c u' ih => simp [hasSub, ih]

theorem noCrossAll_congr {α β : Type} (f : List Char → Option α) (g : List Char → Option β)
    (h : ∀ s, (f s).isNone = (g s).isNone) :
    ∀ u v, noCrossAll f u v = noCrossAll g u v := by
  intro u
  induction u with
  | nil => intro v; rfl
  | cons c r ih => intro v; simp [noCrossAll, h, ih]

theorem noCrossLine_congr {α β : Type} (f : List Char → Option α) (g : List Char → Option β)
    (h : ∀ s, (f s).isNone = (g s).isNone) :
    ∀ b u v, noCrossLine f b u v = noCrossLine g b u v := by
  intro b u
  induction u generalizing b with
  | nil => intro v; rfl
  | cons c r ih => intro v; simp [noCrossLine, h, ih]

theorem noCrossAll_mScalar (key : List Char) (ae : Bool) (v u w : List Char) :
    noCrossAll (mScalar key ae v) u w = noCrossAll (matchKeyVal key ae) u w :=
  noCrossAll_congr _ _ (fun s => by simp [mScalar, isNoneMap]) u w

theorem noCrossLine_mScalar (key : List Char) (ae : Bool) (v : List Char) (b : Bool)
    (u w : List Char) :
    noCrossLine (mScalar key ae v) b u w = noCrossLine (matchKeyVal key ae) b u w :=
  noCrossLine_congr _ _ (fun s => by simp [mScalar, isNoneMap]) b u w

theorem noCrossAll_mBracket (key repl u w : List Char) :
    noCrossAll (mBracket key repl) u w = noCrossAll (matchBracketBlock key) u w :=
  noCrossAll_congr _ _ (fun s => by simp [mBracket, isNoneMap]) u w

theorem subAll_replaceOne (m : List Char → Option (Nat × List Char))
    (A occ B r : List Char) (k : Nat)
    (hocc : occ.length = k + 1)
    (hA : noCrossAll m A (occ ++ B) = true)
    (hm : m (occ ++ B) = some (k + 1, r))
    (hB : noCrossAll m B [] = true) :
    subAll m (A ++ (occ ++ B)) = A ++ (r ++ B) := by
  unfold subAll
  rw [subAllF_append m A (occ ++ B) _ le_rfl hA]
  congr 1
  have hfuel : (A ++ (occ ++ B)).length - A.length = (k + B.length) + 1 := by
    simp [List.length_append, hocc]
    omega
  rw [hfuel]
  cases occ with
  | nil => simp at hocc
  | cons c occT =>
    have hkT : occT.length = k := by simpa using hocc
    have hcons : (c :: occT) ++ B = c :: (occT ++ B) := rfl
    rw [hcons]
    rw [subAllF_matchStep m c (occT ++ B) r k (k + B.length) (by rw [← hcons]; exact hm)]
    congr 1
    have hdrop : (occT ++ B).drop k = B := by
      rw [← hkT]
      exact List.drop_left _ _
    rw [hdrop]
    exact subAllF_id m B (k + B.length) (by omega) hB

theorem subLine_replaceOne (m : List Char → Option (Nat × List Char))
    (A occ B r : List Char) (k : Nat)
    (hocc : occ.length = k + 1)
    (hA : noCrossLine m true A (occ ++ B) = true)
    (hfl : lineFlag true A = true)
    (hm : m (occ ++ B) = some (k + 1, r))
    (hB : noCrossLine m false B [] = true) :
    subLine m (A ++ (occ ++ B)) = A ++ (r ++ B) := by
  unfold subLine
  rw [subLineF_append m A (occ ++ B) true _ le_rfl hA, hfl]
  congr 1
  have hfuel : (A ++ (occ ++ B)).length - A.length = (k + B.length) + 1 := by
    simp [List.length_append, hocc]
    omega
  rw [hfuel]
  cases occ with
  | nil => simp at hocc
  | cons c occT =>
    have hkT : occT.length = k := by simpa using hocc
    have hcons : (c :: occT) ++ B = c :: (occT ++ B) := rfl
    rw [hcons]
    rw [subLineF_matchStep m c (occT ++ B) r k (k + B.length) (by rw [← hcons]; exact hm)]
    congr 1
    have hdrop : (occT ++ B).drop k = B := by
      rw [← hkT]
      exact List.drop_left _ _
    rw [hdrop]
    exact subLineF_id m B false (k + B.length) (by omega) hB

theorem subAll_replaceTwo (m : List Char → Option (Nat × List Char))
    (A o1 B o2 C r1 r2 : List Char) (k1 k2 : Nat)
    (h1l : o1.length = k1 + 1) (h2l : o2.length = k2 + 1)
    (hA : noCrossAll m A (o1 ++ (B ++ (o2 ++ C))) = true)
    (hm1 : m (o1 ++ (B ++ (o2 ++ C))) = some (k1 + 1, r1))
    (hB : noCrossAll m B (o2 ++ C) = true)
    (hm2 : m (o2 ++ C) = some (k2 + 1, r2))
    (hC : noCrossAll m C [] = true) :
    subAll m (A ++ (o1 ++ (B ++ (o2 ++ C)))) = A ++ (r1 ++ (B ++ (r2 ++ C))) := by
  unfold subAll
  rw [subAllF_append m A (o1 ++ (B ++ (o2 ++ C))) _ le_rfl hA]
  congr 1
  have hfuel : (A ++ (o1 ++ (B ++ (o2 ++ C)))).length - A.length
      = (k1 + (B.length + (k2 + 1 + C.length))) + 1 := by
    simp [List.length_append, h1l, h2l]
    omega
  rw [hfuel]
  cases o1 with
  | nil => simp at h1l
  | cons c o1T =>
    have hkT : o1T.length = k1 := by simpa using h1l
    have hcons : (c :: o1T) ++ (B ++ (o2 ++ C)) = c :: (o1T ++ (B ++ (o2 ++ C))) := rfl
    rw [hcons]
    rw [subAllF_matchStep m c (o1T ++ (B ++ (o2 ++ C))) r1 k1 _ (by rw [← hcons]; exact hm1)]
    congr 1
    have hdrop : (o1T ++ (B ++ (o2 ++ C))).drop k1 = B ++ (o2 ++ C) := by
      rw [← hkT]
      exact List.drop_left _ _
    rw [hdrop]
    rw [subAllF_append m B (o2 ++ C) _ (by simp [List.length_append, h2l]) hB]
    congr 1
    have hfuel2 : k1 + (B.length + (k2 + 1 + C.length)) - B.length = (k1 + (k2 + C.length)) + 1 := by
      omega
    rw [hfuel2]
    cases o2 with
    | nil => simp at h2l
    | cons d o2T =>
      have hk2T : o2T.length = k2 := by simpa using h2l
      have hcons2 : (d :: o2T) ++ C = d :: (o2T ++ C) := rfl
      rw [hcons2]
      rw [subAllF_matchStep m d (o2T ++ C) r2 k2 (k1 + (k2 + C.length)) (by rw [← hcons2]; exact hm2)]
      congr 1
      have hdrop2 : (o2T ++ C).drop k2 = C := by
        rw [← hk2T]
        exact List.drop_left _ _
      rw [hdrop2]
      exact subAllF_id m C (k1 + (k2 + C.length)) (by omega) hC

theorem searchLine_found (e : List Char → Option (List Char))
    (A occ B v : List Char)
    (hA : noCrossLine e true A (occ ++ B) = true)
    (hfl : lineFlag true A = true)
    (hocc : occ ≠ [])
    (he : e (occ ++ B) = some v) :
    searchLine e (A ++ (occ ++ B)) = some v := by
  unfold searchLine
  rw [searchLineF_append e A (occ ++ B) true _ le_rfl hA, hfl]
  cases occ with
  | nil => exact absurd rfl hocc
  | cons c occT =>
    have hfuel : (A ++ ((c :: occT) ++ B)).length - A.length = (occT.length + B.length) + 1 := by
      simp [List.length_append]
    rw [hfuel]
    exact searchLineF_hit e c (occT ++ B) v _ he

/-! ### Shared lemma: the insertion case of `setPackagesInclude` -/

theorem setPackagesInclude_insert (A B C p : List Char)
    (hA : noCrossAll (mProjIns (pkgInclude p)) A (projHdr ++ (B ++ '\n' :: '[' :: C)) = true)
    (hB : B.all (fun c => !(c == '[')) = true)
    (hC : noCrossAll (mProjIns (pkgInclude p)) C [] = true)
    (hno : hasSub pkgLit (A ++ (projHdr ++ (B ++ '\n' :: '[' :: C))) = false) :
    setPackagesInclude p (A ++ (projHdr ++ (B ++ '\n' :: '[' :: C)))
      = A ++ (projHdr ++ (B ++ (pkgInclude p ++ '\n' :: '[' :: C))) := by
  unfold setPackagesInclude
  simp only [hno, Bool.false_eq_true, if_false]
  have hsplit : projHdr ++ (B ++ '\n' :: '[' :: C) = (projHdr ++ (B ++ ['\n', '['])) ++ C := by
    simp [List.append_assoc]
  have hm0 := mProjIns_std B C (pkgInclude p) hB
  have hlen : projHdr.length = 9 := by decide
  rw [hlen] at hm0
  have harith : 9 + B.length + 2 = (B.length + 10) + 1 := by omega
  rw [harith] at hm0
  have hoccL : (projHdr ++ (B ++ ['\n', '['])).length = (B.length + 10) + 1 := by
    simp [List.length_append, hlen]
    omega
  rw [hsplit] at hA hm0 ⊢
  have := subAll_replaceOne (mProjIns (pkgInclude p)) A
    (projHdr ++ (B ++ ['\n', '['])) C
    (projHdr ++ B ++ pkgInclude p ++ strL "\n[") (B.length + 10)
    hoccL hA hm0 hC
  rw [this]
  simp [List.append_assoc, strL]

/-- C1 counterexample: the claim asserts that on every document with no
`packages = [` key, `setPackagesInclude` inserts exactly one
`packages = [{include = "p"}]` line after the project section.  On this
document (which has no `packages` text at all) the insertion regex fails
because the project section contains a `[` inside the `dependencies`
value, and the document is returned byte-for-byte unchanged: nothing is
inserted. -/
theorem claimC1_counterexample :
    setPackagesInclude (strL "foo")
        (strL "[project]\nname = \"x\"\ndependencies = [\"a\"]\n\n[tool]\n")
      = strL "[project]\nname = \"x\"\ndependencies = [\"a\"]\n\n[tool]\n"
    ∧ hasSub (strL "packages")
        (strL "[project]\nname = \"x\"\ndependencies = [\"a\"]\n\n[tool]\n") = false := by
  decide

/-- C1 (amended): assume the document splits as
`A ++ "[project]" ++ B ++ "\n[" ++ C` where the section body `B` contains
no `[`, no match of the insertion regex starts inside `A` or inside `C`,
and the literal `packages = [` occurs nowhere in the document.  Then
`setPackagesInclude` splices exactly the bytes
`packages = [{include = "<p>"}]` between the section body and the `\n[`
that opens the next section — with no newline added around them — and
every other byte of the document is unchanged.  (When the insertion regex
finds no such split, the document is returned unchanged, as in the
counterexample.) -/
theorem claimC1_amended (A B C p : List Char)
    (hbs : p.all (fun c => !(c == bslash)) = true)
    (hA : noCrossAll (mProjIns (pkgInclude p)) A (projHdr ++ (B ++ '\n' :: '[' :: C)) = true)
    (hB : B.all (fun c => !(c == '[')) = true)
    (hC : noCrossAll (mProjIns (pkgInclude p)) C [] = true)
    (hno : hasSub pkgLit (A ++ (projHdr ++ (B ++ '\n' :: '[' :: C))) = false) :
    setPackagesInclude p (A ++ (projHdr ++ (B ++ '\n' :: '[' :: C)))
      = A ++ (projHdr ++ (B ++ (pkgInclude p ++ '\n' :: '[' :: C))) :=
  setPackagesInclude_insert A B C p hA hB hC hno

/-- Witness for C1 (amended) at a concrete document. -/
theorem claimC1_witness :
    setPackagesInclude (strL "foo") (strL "[project]\nname = \"x\"\n\n[tool]\n")
      = strL "[project]\nname = \"x\"\npackages = [\x7binclude = \"foo\"\x7d]\n[tool]\n" := by
  have h := claimC1_amended [] (strL "\nname = \"x\"\n") (strL "tool]\n") (strL "foo")
    (by decide) (by decide) (by decide) (by decide) (by decide)
  have e1 : ([] : List Char) ++ (projHdr ++ (strL "\nname = \"x\"\n" ++ '\n' :: '[' :: strL "tool]\n"))
      = strL "[project]\nname = \"x\"\n\n[tool]\n" := by decide
  have e2 : ([] : List Char) ++ (projHdr ++ (strL "\nname = \"x\"\n" ++ (pkgInclude (strL "foo") ++ '\n' :: '[' :: strL "tool]\n")))
      = strL "[project]\nname = \"x\"\npackages = [\x7binclude = \"foo\"\x7d]\n[tool]\n" := by decide
  rw [e1, e2] at h
  exact h

/-! ### Lemmas about the inserted packages block -/

theorem pkgInclude_decomp (p : List Char) :
    pkgInclude p
      = packagesKey ++ (' ' :: '=' :: ' ' :: '[' ::
          ((strL "\x7binclude = \"" ++ p ++ strL "\"\x7d") ++ [']'])) := by
  have h1 : strL "packages = [\x7binclude = \""
      = packagesKey ++ (' ' :: '=' :: ' ' :: '[' :: strL "\x7binclude = \"") := by decide
  have h2 : strL "\"\x7d]" = strL "\"\x7d" ++ [']'] := by decide
  simp [pkgInclude, h1, h2, List.append_assoc]

theorem hasSub_pkgInclude (u w p : List Char) :
    hasSub pkgLit (u ++ (pkgInclude p ++ w)) = true := by
  apply hasSub_append_right
  have h1 : pkgInclude p ++ w
      = pkgLit ++ (strL "\x7binclude = \"" ++ p ++ (strL "\"\x7d]" ++ w)) := by
    have h : strL "packages = [\x7binclude = \"" = pkgLit ++ strL "\x7binclude = \"" := by decide
    simp [pkgInclude, h, List.append_assoc]
  rw [h1, dropLit_self]
  rfl

theorem innerP_all (p : List Char) (hp : p.all (fun c => !(c == ']')) = true) :
    (strL "\x7binclude = \"" ++ p ++ strL "\"\x7d").all (fun c => !(c == ']')) = true := by
  simp only [List.all_append, Bool.and_eq_true]
  refine ⟨⟨by decide, hp⟩, by decide⟩

theorem mBracket_pkgInclude (p tail repl : List Char)
    (hp : p.all (fun c => !(c == ']')) = true) :
    mBracket packagesKey repl (pkgInclude p ++ tail)
      = some ((p.length + 26) + 1, repl) := by
  rw [pkgInclude_decomp p]
  have hassoc : (packagesKey ++ (' ' :: '=' :: ' ' :: '[' ::
        ((strL "\x7binclude = \"" ++ p ++ strL "\"\x7d") ++ [']']))) ++ tail
      = packagesKey ++ (' ' :: '=' :: ' ' :: '[' ::
          ((strL "\x7binclude = \"" ++ p ++ strL "\"\x7d") ++ ']' :: tail)) := by
    simp [List.append_assoc]
  rw [hassoc]
  rw [mBracket_std packagesKey (strL "\x7binclude = \"" ++ p ++ strL "\"\x7d") tail
    repl (innerP_all p hp)]
  have hl1 : (strL "\x7binclude = \"").length = 12 := by decide
  have hl2 : (strL "\"\x7d").length = 2 := by decide
  have hl3 : packagesKey.length = 8 := by decide
  simp [List.length_append, hl1, hl2, hl3]
  omega

/-- C2 counterexample: the claim asserts idempotence for every document
and package name.  On this document the first application takes the
insertion branch (the exact text `packages = [` is absent) and inserts the
packages block; the second application then takes the replacement branch
and additionally rewrites the loosely spelled `packages =[a]` assignment,
so applying the operation twice differs from applying it once. -/
theorem claimC2_counterexample :
    setPackagesInclude (strL "p")
        (setPackagesInclude (strL "p") (strL "[project]\nname = \"x\"\n\n[tool]\npackages =[a]\n"))
      ≠ setPackagesInclude (strL "p") (strL "[project]\nname = \"x\"\n\n[tool]\npackages =[a]\n") := by
  decide

/-- C2 (amended): `setPackagesInclude` is idempotent on documents of the
insertion shape `A ++ "[project]" ++ B ++ "\n[" ++ C` (section body `B`
free of `[`, no insertion-regex match inside `A` or `C`, literal
`packages = [` absent) provided the package name contains no `]` and the
rest of the document contains no further occurrence of the replacement
pattern `packages\s*=\s*[...]` (conditions `hA2`, `hC2`): the first
application inserts the packages block, and the second application
replaces exactly that block by itself. -/
theorem claimC2_amended (A B C p : List Char)
    (hbs : p.all (fun c => !(c == bslash)) = true)
    (hB : B.all (fun c => !(c == '[')) = true)
    (hp : p.all (fun c => !(c == ']')) = true)
    (hA1 : noCrossAll (mProjIns (pkgInclude p)) A (projHdr ++ (B ++ '\n' :: '[' :: C)) = true)
    (hC1 : noCrossAll (mProjIns (pkgInclude p)) C [] = true)
    (hno : hasSub pkgLit (A ++ (projHdr ++ (B ++ '\n' :: '[' :: C))) = false)
    (hA2 : noCrossAll (matchBracketBlock packagesKey) (A ++ (projHdr ++ B))
      (pkgInclude p ++ '\n' :: '[' :: C) = true)
    (hC2 : noCrossAll (matchBracketBlock packagesKey) ('\n' :: '[' :: C) [] = true) :
    setPackagesInclude p (setPackagesInclude p (A ++ (projHdr ++ (B ++ '\n' :: '[' :: C))))
      = setPackagesInclude p (A ++ (projHdr ++ (B ++ '\n' :: '[' :: C))) := by
  rw [setPackagesInclude_insert A B C p hA1 hB hC1 hno]
  unfold setPackagesInclude
  have hin : hasSub pkgLit (A ++ (projHdr ++ (B ++ (pkgInclude p ++ '\n' :: '[' :: C)))) = true := by
    have h : A ++ (projHdr ++ (B ++ (pkgInclude p ++ '\n' :: '[' :: C)))
        = (A ++ (projHdr ++ B)) ++ (pkgInclude p ++ '\n' :: '[' :: C) := by
      simp [List.append_assoc]
    rw [h]
    exact hasSub_pkgInclude _ _ _
  simp only [hin, if_true]
  have hdoc : A ++ (projHdr ++ (B ++ (pkgInclude p ++ '\n' :: '[' :: C)))
      = (A ++ (projHdr ++ B)) ++ (pkgInclude p ++ ('\n' :: '[' :: C)) := by
    simp [List.append_assoc]
  rw [hdoc]
  have hlen : (pkgInclude p).length = (p.length + 26) + 1 := by
    have hl1 : (strL "packages = [\x7binclude = \"").length = 24 := by decide
    have hl2 : (strL "\"\x7d]").length = 3 := by decide
    simp [pkgInclude, List.length_append, hl1, hl2]
    omega
  have hA2' : noCrossAll (mBracket packagesKey (pkgInclude p)) (A ++ (projHdr ++ B))
      (pkgInclude p ++ ('\n' :: '[' :: C)) = true := by
    rw [noCrossAll_mBracket]
    exact hA2
  have hC2' : noCrossAll (mBracket packagesKey (pkgInclude p)) ('\n' :: '[' :: C) [] = true := by
    rw [noCrossAll_mBracket]
    exact hC2
  rw [subAll_replaceOne (mBracket packagesKey (pkgInclude p))
    (A ++ (projHdr ++ B)) (pkgInclude p) ('\n' :: '[' :: C) (pkgInclude p) (p.length + 26)
    hlen hA2' (mBracket_pkgInclude p ('\n' :: '[' :: C) (pkgInclude p) hp) hC2']

/-- Witness for C2 (amended) at a concrete document. -/
theorem claimC2_witness :
    setPackagesInclude (strL "p")
        (setPackagesInclude (strL "p") (strL "[project]\nname = \"x\"\n\n[tool]\n"))
      = setPackagesInclude (strL "p") (strL "[project]\nname = \"x\"\n\n[tool]\n") := by
  have h := claimC2_amended [] (strL "\nname = \"x\"\n") (strL "tool]\n") (strL "p")
    (by decide) (by decide) (by decide) (by decide) (by decide) (by decide) (by decide) (by decide)
  have e1 : ([] : List Char) ++ (projHdr ++ (strL "\nname = \"x\"\n" ++ '\n' :: '[' :: strL "tool]\n"))
      = strL "[project]\nname = \"x\"\n\n[tool]\n" := by decide
  rw [e1] at h
  exact h

/-! ### Scalar-field substitution: shared lemma and claims C3, C5 -/

theorem subLine_scalar (key v A B w : List Char)
    (hw : w ≠ []) (hwq : w.all (fun c => !isQuote c) = true)
    (hA : noCrossLine (matchKeyVal key false) true A (scalarRepl key w ++ B) = true)
    (hfl : lineFlag true A = true)
    (hB : noCrossLine (matchKeyVal key false) false B [] = true) :
    subLine (mScalar key false v) (A ++ (scalarRepl key w ++ B))
      = A ++ (scalarRepl key v ++ B) := by
  have hm : mScalar key false v (scalarRepl key w ++ B)
      = some ((key.length + 4 + w.length) + 1, scalarRepl key v) := by
    rw [scalarRepl_append]
    rw [mScalar_std key w B v hwq hw]
    have h : key.length + 5 + w.length = (key.length + 4 + w.length) + 1 := by omega
    rw [h]
  have hA' : noCrossLine (mScalar key false v) true A (scalarRepl key w ++ B) = true := by
    rw [noCrossLine_mScalar]
    exact hA
  have hB' : noCrossLine (mScalar key false v) false B [] = true := by
    rw [noCrossLine_mScalar]
    exact hB
  exact subLine_replaceOne (mScalar key false v) A (scalarRepl key w) B
    (scalarRepl key v) (key.length + 4 + w.length)
    (by rw [scalarRepl_length]; omega) hA' hfl hm hB'

/-- C3: on a document `A ++ (name = "<w>") ++ B` in which the anchored
pattern `^name\s*=\s*["\'][^"\']+["\']` matches at the displayed line and
nowhere else (hypotheses `hA`, `hB`; `hfl` says the line starts at a line
boundary), `setScalarField` with any new value `v` (backslash-free, per
the replacement-template model boundary) yields
`A ++ (name = "<v>") ++ B`: the name line carries the new value and every
other byte — in particular every other line — is unchanged. -/
theorem claimC3_scalarField (A B v w : List Char)
    (hv : v.all (fun c => !(c == bslash)) = true)
    (hw : w ≠ []) (hwq : w.all (fun c => !isQuote c) = true)
    (hA : noCrossLine (matchKeyVal nameKey false) true A (scalarRepl nameKey w ++ B) = true)
    (hfl : lineFlag true A = true)
    (hB : noCrossLine (matchKeyVal nameKey false) false B [] = true) :
    setScalarField nameKey v (A ++ (scalarRepl nameKey w ++ B))
      = A ++ (scalarRepl nameKey v ++ B) :=
  subLine_scalar nameKey v A B w hw hwq hA hfl hB

/-- Witness for C3 at a concrete document. -/
theorem claimC3_witness :
    setScalarField nameKey (strL "myproj") (strL "x = 1\nname = \"old\"\ndesc = 2\n")
      = strL "x = 1\nname = \"myproj\"\ndesc = 2\n" := by
  have h := claimC3_scalarField (strL "x = 1\n") (strL "\ndesc = 2\n") (strL "myproj")
    (strL "old") (by decide) (by decide) (by decide) (by decide) (by decide) (by decide)
  have e1 : strL "x = 1\n" ++ (scalarRepl nameKey (strL "old") ++ strL "\ndesc = 2\n")
      = strL "x = 1\nname = \"old\"\ndesc = 2\n" := by decide
  have e2 : strL "x = 1\n" ++ (scalarRepl nameKey (strL "myproj") ++ strL "\ndesc = 2\n")
      = strL "x = 1\nname = \"myproj\"\ndesc = 2\n" := by decide
  rw [e1, e2] at h
  exact h

/-- C5: `setRequiresVersion` synthesizes the value `">=<minVersion>"`: on
`A ++ (requires-python = "<w>") ++ B` (single anchored match, hypotheses
as in C3) it yields `A ++ (requires-python = ">=<ver>") ++ B` — the new
quoted value is `>=` followed by the minimum version, not the raw
input. -/
theorem claimC5_requiresVersion (A B ver w : List Char)
    (hv : ver.all (fun c => !(c == bslash)) = true)
    (hw : w ≠ []) (hwq : w.all (fun c => !isQuote c) = true)
    (hA : noCrossLine (matchKeyVal reqKey false) true A (scalarRepl reqKey w ++ B) = true)
    (hfl : lineFlag true A = true)
    (hB : noCrossLine (matchKeyVal reqKey false) false B [] = true) :
    setRequiresVersion ver (A ++ (scalarRepl reqKey w ++ B))
      = A ++ (scalarRepl reqKey (strL ">=" ++ ver) ++ B) :=
  subLine_scalar reqKey (strL ">=" ++ ver) A B w hw hwq hA hfl hB

/-- Witness for C5: minimum version `3.12` applied over `">=3.10"` yields
`">=3.12"`, as the claim's example requires. -/
theorem claimC5_witness :
    setRequiresVersion (strL "3.12") (strL "a = 0\nrequires-python = \">=3.10\"\nb = 1\n")
      = strL "a = 0\nrequires-python = \">=3.12\"\nb = 1\n" := by
  have h := claimC5_requiresVersion (strL "a = 0\n") (strL "\nb = 1\n") (strL "3.12")
    (strL ">=3.10") (by decide) (by decide) (by decide) (by decide) (by decide) (by decide)
  have e1 : strL "a = 0\n" ++ (scalarRepl reqKey (strL ">=3.10") ++ strL "\nb = 1\n")
      = strL "a = 0\nrequires-python = \">=3.10\"\nb = 1\n" := by decide
  have e2 : strL "a = 0\n" ++ (scalarRepl reqKey (strL ">=" ++ strL "3.12") ++ strL "\nb = 1\n")
      = strL "a = 0\nrequires-python = \">=3.12\"\nb = 1\n" := by decide
  rw [e1, e2] at h
  exact h

/-- C4: for each edit operation separately, when that operation's expected
pattern is absent from the document (no match of the scalar `name`
pattern, the `requires-python` pattern, the `authors` block pattern, or
the tool `package` pattern anywhere — each conjunct carries only its own
operation's absence hypothesis), the operation returns the document
unchanged.  The operations are total Lean functions, mirroring the fact
that the Python substitutions raise nothing on a failed search: the
PatternNotFound case is silently a no-op for that field. -/
theorem claimC4_patternAbsent (doc v ver an em pk : List Char) :
    (noCrossLine (matchKeyVal nameKey false) true doc [] = true →
      setScalarField nameKey v doc = doc)
    ∧ (noCrossLine (matchKeyVal reqKey false) true doc [] = true →
      setRequiresVersion ver doc = doc)
    ∧ (noCrossAll (matchBracketBlock authorsKey) doc [] = true →
      setAuthors an em doc = doc)
    ∧ (noCrossAll (matchKeyVal toolKey false) doc [] = true →
      setToolPackageKey toolKey pk doc = doc) := by
  refine ⟨fun h1 => ?_, fun h2 => ?_, fun h3 => ?_, fun h4 => ?_⟩
  · unfold setScalarField subLine
    exact subLineF_id _ doc true _ le_rfl (by rw [noCrossLine_mScalar]; exact h1)
  · unfold setRequiresVersion subLine
    exact subLineF_id _ doc true _ le_rfl (by rw [noCrossLine_mScalar]; exact h2)
  · unfold setAuthors subAll
    exact subAllF_id _ doc _ le_rfl (by rw [noCrossAll_mBracket]; exact h3)
  · unfold setToolPackageKey subAll
    exact subAllF_id _ doc _ le_rfl (by rw [noCrossAll_mScalar]; exact h4)

/-- Witness for C4: each conjunct applied to a document missing only that
operation's pattern.  In particular, the third conjunct is the spec's own
test scenario: `setAuthors` on a document with no `authors` key at all
but with a `name` line, returned unchanged. -/
theorem claimC4_witness :
    setScalarField nameKey (strL "n") (strL "authors = [x]\nrequires-python = \">=3.10\"\n")
      = strL "authors = [x]\nrequires-python = \">=3.10\"\n"
    ∧ setRequiresVersion (strL "3.12") (strL "name = \"x\"\nauthors = [x]\n")
      = strL "name = \"x\"\nauthors = [x]\n"
    ∧ setAuthors (strL "Jane Doe") (strL "jane@example.com") (strL "name = \"x\"\ndescription = \"d\"\n")
      = strL "name = \"x\"\ndescription = \"d\"\n"
    ∧ setToolPackageKey toolKey (strL "p") (strL "name = \"x\"\nauthors = [x]\n")
      = strL "name = \"x\"\nauthors = [x]\n" :=
  ⟨(claimC4_patternAbsent (strL "authors = [x]\nrequires-python = \">=3.10\"\n")
      (strL "n") (strL "3.12") (strL "Jane Doe") (strL "jane@example.com") (strL "p")).1
      (by decide),
   (claimC4_patternAbsent (strL "name = \"x\"\nauthors = [x]\n")
      (strL "n") (strL "3.12") (strL "Jane Doe") (strL "jane@example.com") (strL "p")).2.1
      (by decide),
   (claimC4_patternAbsent (strL "name = \"x\"\ndescription = \"d\"\n")
      (strL "n") (strL "3.12") (strL "Jane Doe") (strL "jane@example.com") (strL "p")).2.2.1
      (by decide),
   (claimC4_patternAbsent (strL "name = \"x\"\nauthors = [x]\n")
      (strL "n") (strL "3.12") (strL "Jane Doe") (strL "jane@example.com") (strL "p")).2.2.2
      (by decide)⟩

/-! ### The authors block: claim C6 -/

theorem bracketOcc_append (key inner t : List Char) :
    bracketOcc key inner ++ t
      = key ++ (' ' :: '=' :: ' ' :: '[' :: (inner ++ ']' :: t)) := by
  simp [bracketOcc, List.append_assoc]

theorem bracketOcc_length (key inner : List Char) :
    (bracketOcc key inner).length = (key.length + 4 + inner.length) + 1 := by
  simp [bracketOcc, List.length_append]
  omega

/-- C6: on a document `A ++ (authors = [<inner>]) ++ B` whose authors
block is the displayed bracketed block (the first `]` ends it: `inner`
contains no `]`) and whose pattern matches nowhere else (hypotheses `hA`,
`hB`), `setAuthors` replaces the whole block with the single-entry list
`authors = [ { name = "<n>", email = "<e>" } ]` and leaves every other
byte unchanged. -/
theorem claimC6_setAuthors (A B inner n e : List Char)
    (hn : n.all (fun c => !(c == bslash)) = true)
    (he : e.all (fun c => !(c == bslash)) = true)
    (hin : inner.all (fun c => !(c == ']')) = true)
    (hA : noCrossAll (matchBracketBlock authorsKey) A (bracketOcc authorsKey inner ++ B) = true)
    (hB : noCrossAll (matchBracketBlock authorsKey) B [] = true) :
    setAuthors n e (A ++ (bracketOcc authorsKey inner ++ B))
      = A ++ (authorsRepl n e ++ B) := by
  unfold setAuthors
  have hm : mBracket authorsKey (authorsRepl n e) (bracketOcc authorsKey inner ++ B)
      = some ((authorsKey.length + 4 + inner.length) + 1, authorsRepl n e) := by
    rw [bracketOcc_append]
    rw [mBracket_std authorsKey inner B (authorsRepl n e) hin]
    have h : authorsKey.length + 5 + inner.length = (authorsKey.length + 4 + inner.length) + 1 := by
      omega
    rw [h]
  have hA' : noCrossAll (mBracket authorsKey (authorsRepl n e)) A
      (bracketOcc authorsKey inner ++ B) = true := by
    rw [noCrossAll_mBracket]
    exact hA
  have hB' : noCrossAll (mBracket authorsKey (authorsRepl n e)) B [] = true := by
    rw [noCrossAll_mBracket]
    exact hB
  exact subAll_replaceOne (mBracket authorsKey (authorsRepl n e)) A
    (bracketOcc authorsKey inner) B (authorsRepl n e) (authorsKey.length + 4 + inner.length)
    (bracketOcc_length authorsKey inner) hA' hm hB'

/-- Witness for C6 on the claim's example: an authors block with one old
entry is replaced by the new single entry, other content unchanged. -/
theorem claimC6_witness :
    setAuthors (strL "Jane Doe") (strL "jane@example.com")
        (strL "x = 1\nauthors = [\x7b name = \"Old\", email = \"old@x.com\" \x7d]\ny = 2\n")
      = strL "x = 1\nauthors = [ \x7b name = \"Jane Doe\", email = \"jane@example.com\" \x7d ]\ny = 2\n" := by
  have h := claimC6_setAuthors (strL "x = 1\n") (strL "\ny = 2\n")
    (strL "\x7b name = \"Old\", email = \"old@x.com\" \x7d")
    (strL "Jane Doe") (strL "jane@example.com")
    (by decide) (by decide) (by decide) (by decide) (by decide)
  have e1 : strL "x = 1\n" ++ (bracketOcc authorsKey (strL "\x7b name = \"Old\", email = \"old@x.com\" \x7d") ++ strL "\ny = 2\n")
      = strL "x = 1\nauthors = [\x7b name = \"Old\", email = \"old@x.com\" \x7d]\ny = 2\n" := by decide
  have e2 : strL "x = 1\n" ++ (authorsRepl (strL "Jane Doe") (strL "jane@example.com") ++ strL "\ny = 2\n")
      = strL "x = 1\nauthors = [ \x7b name = \"Jane Doe\", email = \"jane@example.com\" \x7d ]\ny = 2\n" := by decide
  rw [e1, e2] at h
  exact h

/-! ### The tool package key: claim C7 -/

/-- C7 counterexample: the claim says `setToolPackageKey` replaces the
first line whose `package` key is at the start of a line, leaving every
other line unchanged.  This document has no line starting with the
`package` key at all, so under the claim it should be left unchanged; the
substitution is in fact un-anchored and rewrites the tail of
`mypackage = "x"`, changing the line. -/
theorem claimC7_counterexample :
    setToolPackageKey toolKey (strL "p") (strL "mypackage = \"x\"\n") = strL "mypackage = \"p\"\n"
    ∧ strL "mypackage = \"p\"\n" ≠ strL "mypackage = \"x\"\n" := by
  decide

/-- C7 (amended): `setToolPackageKey` replaces every occurrence of
`package\s*=\s*["\'][^"\']+["\']` anywhere in the document — matches may
begin mid-line and all of them are rewritten, not only the first line —
each with `package = "<pkg>"`, leaving every byte outside the matches
unchanged.  Stated for a document with two occurrences (hypotheses `hA`,
`hB`, `hC`: the pattern matches nowhere else). -/
theorem claimC7_amended (A B C pk w1 w2 : List Char)
    (hpk : pk.all (fun c => !(c == bslash)) = true)
    (h1 : w1 ≠ []) (h1q : w1.all (fun c => !isQuote c) = true)
    (h2 : w2 ≠ []) (h2q : w2.all (fun c => !isQuote c) = true)
    (hA : noCrossAll (matchKeyVal toolKey false) A
      (scalarRepl toolKey w1 ++ (B ++ (scalarRepl toolKey w2 ++ C))) = true)
    (hB : noCrossAll (matchKeyVal toolKey false) B (scalarRepl toolKey w2 ++ C) = true)
    (hC : noCrossAll (matchKeyVal toolKey false) C [] = true) :
    setToolPackageKey toolKey pk
        (A ++ (scalarRepl toolKey w1 ++ (B ++ (scalarRepl toolKey w2 ++ C))))
      = A ++ (scalarRepl toolKey pk ++ (B ++ (scalarRepl toolKey pk ++ C))) := by
  unfold setToolPackageKey
  have hm1 : mScalar toolKey false pk (scalarRepl toolKey w1 ++ (B ++ (scalarRepl toolKey w2 ++ C)))
      = some ((toolKey.length + 4 + w1.length) + 1, scalarRepl toolKey pk) := by
    rw [scalarRepl_append]
    rw [mScalar_std toolKey w1 _ pk h1q h1]
    have h : toolKey.length + 5 + w1.length = (toolKey.length + 4 + w1.length) + 1 := by omega
    rw [h]
  have hm2 : mScalar toolKey false pk (scalarRepl toolKey w2 ++ C)
      = some ((toolKey.length + 4 + w2.length) + 1, scalarRepl toolKey pk) := by
    rw [scalarRepl_append]
    rw [mScalar_std toolKey w2 C pk h2q h2]
    have h : toolKey.length + 5 + w2.length = (toolKey.length + 4 + w2.length) + 1 := by omega
    rw [h]
  have hA' := hA
  rw [← noCrossAll_mScalar toolKey false pk] at hA' hB hC
  exact subAll_replaceTwo (mScalar toolKey false pk) A
    (scalarRepl toolKey w1) B (scalarRepl toolKey w2) C
    (scalarRepl toolKey pk) (scalarRepl toolKey pk)
    (toolKey.length + 4 + w1.length) (toolKey.length + 4 + w2.length)
    (by rw [scalarRepl_length]; omega) (by rw [scalarRepl_length]; omega)
    hA' hm1 hB hm2 hC

/-- Witness for C7 (amended): the second occurrence begins mid-line
(inside `mypackage = "b"`), and both occurrences are rewritten. -/
theorem claimC7_witness :
    setToolPackageKey toolKey (strL "pkg")
        (strL "package = \"a\"\nmypackage = \"b\"\n")
      = strL "package = \"pkg\"\nmypackage = \"pkg\"\n" := by
  have h := claimC7_amended (strL "") (strL "\nmy") (strL "\n") (strL "pkg")
    (strL "a") (strL "b")
    (by decide) (by decide) (by decide) (by decide) (by decide)
    (by decide) (by decide) (by decide)
  have e1 : strL "" ++ (scalarRepl toolKey (strL "a") ++ (strL "\nmy" ++ (scalarRepl toolKey (strL "b") ++ strL "\n")))
      = strL "package = \"a\"\nmypackage = \"b\"\n" := by decide
  have e2 : strL "" ++ (scalarRepl toolKey (strL "pkg") ++ (strL "\nmy" ++ (scalarRepl toolKey (strL "pkg") ++ strL "\n")))
      = strL "package = \"pkg\"\nmypackage = \"pkg\"\n" := by decide
  rw [e1, e2] at h
  exact h

/-! ### Round trip: claim C8 -/

theorem extract_isNone (key s : List Char) :
    (extractKeyVal key s).isNone = (matchKeyVal key false s).isNone := by
  unfold extractKeyVal matchKeyVal
  rcases h : scanKeyVal key s with _ | ⟨n, v⟩
  · rfl
  · by_cases hv : v.length = 0 <;> simp [hv]

theorem noCrossLine_extract (key : List Char) (b : Bool) (u w : List Char) :
    noCrossLine (extractKeyVal key) b u w = noCrossLine (matchKeyVal key false) b u w :=
  noCrossLine_congr _ _ (fun s => extract_isNone key s) b u w

/-- C8: round trip for the scalar `name` field: writing value `X`
(non-empty, quote-free, backslash-free) with `setScalarField` into a
document whose anchored name pattern matches only at the displayed line —
before and after the edit, hypotheses `hA1`/`hA2` — and then re-reading
the field with `get_project_name`'s pattern yields exactly `X`. -/
theorem claimC8_roundTrip (A B X w : List Char)
    (hXb : X.all (fun c => !(c == bslash)) = true)
    (hX : X ≠ []) (hXq : X.all (fun c => !isQuote c) = true)
    (hw : w ≠ []) (hwq : w.all (fun c => !isQuote c) = true)
    (hA1 : noCrossLine (matchKeyVal nameKey false) true A (scalarRepl nameKey w ++ B) = true)
    (hA2 : noCrossLine (matchKeyVal nameKey false) true A (scalarRepl nameKey X ++ B) = true)
    (hfl : lineFlag true A = true)
    (hB : noCrossLine (matchKeyVal nameKey false) false B [] = true) :
    getProjectName (setScalarField nameKey X (A ++ (scalarRepl nameKey w ++ B))) = some X := by
  unfold setScalarField
  rw [subLine_scalar nameKey X A B w hw hwq hA1 hfl hB]
  unfold getProjectName
  apply searchLine_found
  · rw [noCrossLine_extract]
    exact hA2
  · exact hfl
  · simp [scalarRepl]
  · rw [scalarRepl_append]
    exact extractKeyVal_std nameKey X B hXq hX

/-- Witness for C8 at a concrete document. -/
theorem claimC8_witness :
    getProjectName (setScalarField nameKey (strL "newname")
        (strL "t = 2\nname = \"old\"\nz = 3\n")) = some (strL "newname") := by
  have h := claimC8_roundTrip (strL "t = 2\n") (strL "\nz = 3\n") (strL "newname") (strL "old")
    (by decide) (by decide) (by decide) (by decide) (by decide)
    (by decide) (by decide) (by decide) (by decide)
  have e1 : strL "t = 2\n" ++ (scalarRepl nameKey (strL "old") ++ strL "\nz = 3\n")
      = strL "t = 2\nname = \"old\"\nz = 3\n" := by decide
  rw [e1] at h
  exact h

/-! ### Error handling of `initialize_project`: claim C9 -/

/-- C9: when the read of the configuration document fails (any
`Except.error`), the caught exception results in no write at all — no
partial edit can be persisted, since the only write is `some` of the
complete transformed document — and the remaining setup steps (structure
creation, towncrier setup, envrc creation, sentinel) still execute; on a
successful read the full transform of the whole document is written.  The
step list is the same in both cases. -/
theorem claimC9_errorHandling (c : ProjectConfig) (err d : List Char) :
    (initializeProject c (Except.error err)).1 = initSteps
    ∧ (initializeProject c (Except.error err)).2 = none
    ∧ (initializeProject c (Except.ok d)).1 = initSteps
    ∧ (initializeProject c (Except.ok d)).2 = some (updateContent c d) :=
  ⟨rfl, rfl, rfl, rfl⟩

/-! ### Slugify: claim C10 -/

theorem pyLower_not_upper (c : Char) : isUpperA (pyLower c) = false := by
  unfold pyLower
  by_cases h : 65 ≤ c.toNat ∧ c.toNat ≤ 90
  · rw [if_pos h]
    obtain ⟨h1, h2⟩ := h
    generalize hn : c.toNat = n at h1 h2 ⊢
    interval_cases n <;> decide
  · rw [if_neg h]
    have h' : ¬ 65 ≤ c.toNat ∨ ¬ c.toNat ≤ 90 := by tauto
    rcases h' with h' | h' <;> simp [isUpperA, h']

theorem slug_out (c : Char) (hs : isSlugChar c = true) (hu : isUpperA c = false) :
    isOutChar c = true := by
  simp only [isSlugChar, Bool.or_eq_true] at hs
  rcases hs with (((h | h) | h) | h) | h
  · simp [isOutChar, h]
  · rw [h] at hu
    simp at hu
  · simp [isOutChar, h]
  · simp [isOutChar, h]
  · simp [isOutChar, h]

theorem slugSub_chars :
    ∀ l : List Char, (∀ c ∈ l, isUpperA c = false) →
      (∀ c ∈ slugSub l, isOutChar c = true) ∧ (∀ c ∈ slugSkip l, isOutChar c = true) := by
  intro l
  induction l with
  | nil =>
    intro _
    constructor <;> intro c hc <;> simp [slugSub, slugSkip] at hc
  | cons a r ih =>
    intro h
    have hr := ih (fun c hc => h c (List.mem_cons_of_mem a hc))
    have ha := h a (List.mem_cons_self a r)
    constructor
    · intro c hc
      simp only [slugSub] at hc
      by_cases hs : isSlugChar a = true
      · rw [if_pos hs] at hc
        rcases List.mem_cons.mp hc with rfl | hc
        · exact slug_out c hs ha
        · exact hr.1 c hc
      · rw [if_neg hs] at hc
        rcases List.mem_cons.mp hc with rfl | hc
        · decide
        · exact hr.2 c hc
    · intro c hc
      simp only [slugSkip] at hc
      by_cases hs : isSlugChar a = true
      · rw [if_pos hs] at hc
        rcases List.mem_cons.mp hc with rfl | hc
        · exact slug_out c hs ha
        · exact hr.1 c hc
      · rw [if_neg hs] at hc
        exact hr.2 c hc

theorem head_dropWhile_false (p : Char → Bool) (l : List Char) (c : Char)
    (h : (l.dropWhile p).head? = some c) : p c = false := by
  induction l with
  | nil => simp [List.dropWhile] at h
  | cons a r ih =>
    rw [List.dropWhile_cons] at h
    by_cases hp : p a = true
    · rw [if_pos hp] at h
      exact ih h
    · rw [if_neg hp] at h
      simp only [List.head?_cons, Option.some.injEq] at h
      subst h
      exact Bool.eq_false_iff.mpr hp

theorem stripDash_last (u : List Char) (c : Char)
    (h : (stripDash u).getLast? = some c) : (c == '-') = false := by
  unfold stripDash at h
  rw [List.getLast?_reverse] at h
  exact head_dropWhile_false (fun x => x == '-') ((u.dropWhile (fun x => x == '-')).reverse) c h

theorem stripDash_subset (u : List Char) (c : Char) (h : c ∈ stripDash u) : c ∈ u := by
  unfold stripDash at h
  rw [List.mem_reverse] at h
  have h1 : c ∈ (u.dropWhile (fun x => x == '-')).reverse :=
    (List.dropWhile_sublist _).subset h
  rw [List.mem_reverse] at h1
  exact (List.dropWhile_sublist _).subset h1

theorem out_alpha_first (c : Char) (ho : isOutChar c = true) (ha : isAlphaUnd c = true) :
    (isLowerA c || c == '_') = true := by
  simp only [isAlphaUnd, Bool.or_eq_true] at ha
  rcases ha with (h | h) | h
  · simp [h]
  · exfalso
    simp only [isOutChar, Bool.or_eq_true] at ho
    rcases ho with ((h' | h') | h') | h'
    · simp only [isLowerA, isUpperA, Bool.and_eq_true, decide_eq_true_eq] at h h'
      omega
    · simp only [isDigitA, isUpperA, Bool.and_eq_true, decide_eq_true_eq] at h h'
      omega
    · have hc : c = '-' := by simpa using h'
      rw [hc] at h
      exact absurd h (by decide)
    · have hc : c = '_' := by simpa using h'
      rw [hc] at h
      exact absurd h (by decide)
  · simp [h]

/-- C10: for every input, `slugify` returns a string whose characters are
all lowercase letters, digits, hyphens or underscores, whose first
character (when the result is non-empty) is a lowercase letter or an
underscore — hence no leading hyphen — and whose last character is not a
hyphen. -/
theorem claimC10_slugify (s : List Char) :
    (slugify s).all isOutChar = true
    ∧ headOkB (slugify s) = true
    ∧ lastNotDashB (slugify s) = true := by
  have hlow : ∀ c ∈ s.map pyLower, isUpperA c = false := by
    intro c hc
    rcases List.mem_map.mp hc with ⟨x, -, rfl⟩
    exact pyLower_not_upper x
  have hchars := (slugSub_chars (s.map pyLower) hlow).1
  obtain ⟨t, htc⟩ : ∃ t, stripDash (slugSub (s.map pyLower)) = t := ⟨_, rfl⟩
  have hstrip : ∀ c ∈ t, isOutChar c = true := by
    intro c hc
    exact hchars c (stripDash_subset _ c (by rw [htc]; exact hc))
  have hlast : ∀ c, t.getLast? = some c → (c == '-') = false := by
    intro c hc
    exact stripDash_last (slugSub (s.map pyLower)) c (by rw [htc]; exact hc)
  unfold slugify
  rw [htc]
  cases t with
  | nil => simp [fixLead, headOkB, lastNotDashB]
  | cons a t' =>
    by_cases hau : isAlphaUnd a = true
    · have hfix : fixLead (a :: t') = a :: t' := by
        simp only [fixLead]
        rw [if_pos hau]
      rw [hfix]
      refine ⟨?_, ?_, ?_⟩
      · rw [List.all_eq_true]
        exact fun c hc => hstrip c hc
      · have hout : isOutChar a = true := hstrip a (List.mem_cons_self a t')
        simp [headOkB, out_alpha_first a hout hau]
      · unfold lastNotDashB
        cases hl : (a :: t').getLast? with
        | none => rfl
        | some c => simp [hlast c hl]
    · have hfix : fixLead (a :: t') = (a :: t').dropWhile (fun x => !isAlphaUnd x) := by
        simp only [fixLead]
        rw [if_neg hau]
      rw [hfix]
      refine ⟨?_, ?_, ?_⟩
      · rw [List.all_eq_true]
        intro c hc
        exact hstrip c ((List.dropWhile_sublist _).subset hc)
      · unfold headOkB
        cases hh : ((a :: t').dropWhile (fun x => !isAlphaUnd x)).head? with
        | none => rfl
        | some c =>
          have hna := head_dropWhile_false (fun x => !isAlphaUnd x) (a :: t') c hh
          have ha : isAlphaUnd c = true := by simpa using hna
          have hmem : c ∈ a :: t' :=
            (List.dropWhile_sublist _).subset (List.mem_of_mem_head? hh)
          simpa using out_alpha_first c (hstrip c hmem) ha
      · unfold lastNotDashB
        cases hg : ((a :: t').dropWhile (fun x => !isAlphaUnd x)).getLast? with
        | none => rfl
        | some d =>
          have hsplit := List.takeWhile_append_dropWhile (p := fun x => !isAlphaUnd x) (l := a :: t')
          have hgl : (a :: t').getLast? = some d := by
            rw [← hsplit, List.getLast?_append, hg]
            rfl
          simp [hlast d hgl]
